import Mathlib

/-!
Verification of the `raytracer` crate (src/raytracer/src/main.rs): a shallow
embedding of the vector algebra, the ray-sphere intersection query, the
nearest-hit loop of `ray_color`, the color quantizer of `write_color` and the
render loop of `main`, with `f64` modelled by `ℝ` and `f64::sqrt` by
`Real.sqrt`.  Rust's `x / 0.0` for nonzero `x` is `±inf`, which is rejected by
every comparison the program performs on such a quotient, matching Lean's
`x / 0 = 0` being rejected by the same comparisons; this is noted where used.
-/

/-- `struct Vec3 { x: f64, y: f64, z: f64 }`. -/
@[ext] structure Vec3 where
  x : ℝ
  y : ℝ
  z : ℝ

/-- `impl Add for Vec3`. -/
def Vec3.add (a b : Vec3) : Vec3 := ⟨a.x + b.x, a.y + b.y, a.z + b.z⟩

/-- `impl Sub for Vec3`. -/
def Vec3.sub (a b : Vec3) : Vec3 := ⟨a.x - b.x, a.y - b.y, a.z - b.z⟩

/-- `impl Mul<f64> for Vec3` (vector times scalar, componentwise). -/
def Vec3.smul (a : Vec3) (t : ℝ) : Vec3 := ⟨a.x * t, a.y * t, a.z * t⟩

instance : Add Vec3 := ⟨Vec3.add⟩

instance : Sub Vec3 := ⟨Vec3.sub⟩

instance : HMul Vec3 ℝ Vec3 := ⟨Vec3.smul⟩

instance : Zero Vec3 := ⟨⟨0, 0, 0⟩⟩

/-- `Vec3::dot`. -/
def Vec3.dot (a b : Vec3) : ℝ := a.x * b.x + a.y * b.y + a.z * b.z

/-- `Vec3::length_squared`. -/
def Vec3.length_squared (v : Vec3) : ℝ := v.x * v.x + v.y * v.y + v.z * v.z

/-- `Vec3::length`. -/
noncomputable def Vec3.length (v : Vec3) : ℝ := Real.sqrt v.length_squared

/-- `Vec3::unit`: each component divided by the length. -/
noncomputable def Vec3.unit (v : Vec3) : Vec3 :=
  ⟨v.x / v.length, v.y / v.length, v.z / v.length⟩

@[simp] lemma Vec3.add_x (a b : Vec3) : (a + b).x = a.x + b.x := rfl

@[simp] lemma Vec3.add_y (a b : Vec3) : (a + b).y = a.y + b.y := rfl

@[simp] lemma Vec3.add_z (a b : Vec3) : (a + b).z = a.z + b.z := rfl

@[simp] lemma Vec3.sub_x (a b : Vec3) : (a - b).x = a.x - b.x := rfl

@[simp] lemma Vec3.sub_y (a b : Vec3) : (a - b).y = a.y - b.y := rfl

@[simp] lemma Vec3.sub_z (a b : Vec3) : (a - b).z = a.z - b.z := rfl

@[simp] lemma Vec3.smul_x (a : Vec3) (t : ℝ) : (a * t).x = a.x * t := rfl

@[simp] lemma Vec3.smul_y (a : Vec3) (t : ℝ) : (a * t).y = a.y * t := rfl

@[simp] lemma Vec3.smul_z (a : Vec3) (t : ℝ) : (a * t).z = a.z * t := rfl

@[simp] lemma Vec3.zero_x : (0 : Vec3).x = 0 := rfl

@[simp] lemma Vec3.zero_y : (0 : Vec3).y = 0 := rfl

@[simp] lemma Vec3.zero_z : (0 : Vec3).z = 0 := rfl

instance : AddCommMonoid Vec3 where
  add_assoc a b c := by ext <;> simp <;> ring
  zero_add a := by ext <;> simp
  add_zero a := by ext <;> simp
  add_comm a b := by ext <;> simp <;> ring
  nsmul := nsmulRec

/-- `type Color = Vec3`. -/
abbrev Color := Vec3

/-- `type Point3 = Vec3`. -/
abbrev Point3 := Vec3

/-- `struct Ray { origin: Point3, direction: Vec3 }`. -/
structure Ray where
  origin : Point3
  direction : Vec3

/-- `Ray::at`. -/
def Ray.at (r : Ray) (t : ℝ) : Point3 := r.origin + r.direction * t

/-- `struct Sphere { center: Point3, radius: f64 }`. -/
structure Sphere where
  center : Point3
  radius : ℝ

/-- `fn hit_sphere(center, radius, r) -> Option<f64>`: the near quadratic root
when the discriminant is nonnegative, `None` otherwise. -/
noncomputable def hit_sphere (center : Point3) (radius : ℝ) (r : Ray) : Option ℝ :=
  let oc := r.origin - center
  let a := r.direction.length_squared
  let half_b := oc.dot r.direction
  let c := oc.length_squared - radius * radius
  let discriminant := half_b * half_b - a * c
  if discriminant < 0 then none
  else some ((-half_b - Real.sqrt discriminant) / a)

/-- The `half_b` coefficient of the intersection quadratic, as `hit_sphere`
computes it. -/
def sphereHalfB (center : Point3) (r : Ray) : ℝ := (r.origin - center).dot r.direction

/-- The discriminant of the intersection quadratic, as `hit_sphere` computes
it. -/
def sphereDisc (center : Point3) (radius : ℝ) (r : Ray) : ℝ :=
  sphereHalfB center r * sphereHalfB center r -
    r.direction.length_squared * ((r.origin - center).length_squared - radius * radius)

/-- The acceptance test of `ray_color`'s loop applied to one sphere: the value
`hit_sphere` returns when it passes `t > 0.001` (`t < closest_so_far` is the
running-minimum comparison, kept in the loop itself), `none` otherwise. -/
noncomputable def acceptedT (r : Ray) (s : Sphere) : Option ℝ :=
  match hit_sphere s.center s.radius r with
  | none => none
  | some t => if 0.001 < t then some t else none

/-- One iteration of `ray_color`'s loop: fold the candidate of sphere number
`i` into the running `(hit_sphere_idx, closest_so_far)` state.  `none` stands
for `closest_so_far = f64::INFINITY` with no index, which every real candidate
compares below. -/
noncomputable def stepAcc (i : ℕ) (acc : Option (ℕ × ℝ)) : Option ℝ → Option (ℕ × ℝ)
  | none => acc
  | some t =>
    if 0.001 < t then
      match acc with
      | none => some (i, t)
      | some jc => if t < jc.2 then some (i, t) else acc
    else acc

/-- The `for (i, s) in world.iter().enumerate()` loop of `ray_color`, with the
index of the next sphere and the running state made explicit. -/
noncomputable def findHitAux (r : Ray) : ℕ → Option (ℕ × ℝ) → List Sphere → Option (ℕ × ℝ)
  | _, acc, [] => acc
  | i, acc, s :: rest => findHitAux r (i + 1) (stepAcc i acc (hit_sphere s.center s.radius r)) rest

/-- The loop of `ray_color` run from its initial state
(`closest_so_far = INFINITY`, `hit_sphere_idx = None`): the index of the
winning sphere and its parameter, if any sphere is accepted. -/
noncomputable def findHit (r : Ray) (world : List Sphere) : Option (ℕ × ℝ) :=
  findHitAux r 0 none world

/-- The sphere used when indexing out of range; `ray_color` only indexes with
the in-range index its loop produced, so this default is never consulted. -/
def defaultSphere : Sphere := ⟨⟨0, 0, 0⟩, 0⟩

/-- The hit branch of `ray_color`: shade by the outward unit normal at the hit
point. -/
noncomputable def hitColor (r : Ray) (s : Sphere) (t : ℝ) : Color :=
  let p := r.at t
  let n := (p - s.center).unit
  Vec3.mk (n.x + 1) (n.y + 1) (n.z + 1) * (0.5 : ℝ)

/-- The miss branch of `ray_color`: the vertical background gradient. -/
noncomputable def backgroundColor (r : Ray) : Color :=
  let unit_dir := r.direction.unit
  let t := 0.5 * (unit_dir.y + 1)
  Vec3.mk 1 1 1 * (1 - t) + Vec3.mk 0.5 0.7 1 * t

/-- `fn ray_color(r, world) -> Color`. -/
noncomputable def ray_color (r : Ray) (world : List Sphere) : Color :=
  match findHit r world with
  | some it => hitColor r (world.getD it.1 defaultSphere) it.2
  | none => backgroundColor r

/-- `f64::clamp(self, min, max)`: `min` if below it, `max` if above it, the
value itself otherwise. -/
noncomputable def rustClamp (x lo hi : ℝ) : ℝ := if x < lo then lo else if x > hi then hi else x

/-- A float cast `as i32`: truncation toward zero. -/
noncomputable def rtrunc (x : ℝ) : ℤ := if 0 ≤ x then ⌊x⌋ else ⌈x⌉

/-- One channel of `write_color` before quantization:
`pixel_color.x.clamp(0.0, 0.999).sqrt()`. -/
noncomputable def gammaChannel (x : ℝ) : ℝ := Real.sqrt (rustClamp x 0 0.999)

/-- The quantization of `write_color`: `(255.999 * r) as i32`. -/
noncomputable def quantize (x : ℝ) : ℤ := rtrunc (255.999 * x)

/-- The three integers `write_color` emits for a pixel color. -/
noncomputable def writeColorInts (c : Color) : ℤ × ℤ × ℤ :=
  (quantize (gammaChannel c.x), quantize (gammaChannel c.y), quantize (gammaChannel c.z))

/-- The line `writeln!(out, "{ir} {ig} {ib}")` of `write_color` prints. -/
noncomputable def colorLine (c : Color) : String :=
  toString (writeColorInts c).1 ++ " " ++ toString (writeColorInts c).2.1 ++ " " ++
    toString (writeColorInts c).2.2

/-- `let aspect_ratio = 16.0 / 9.0`. -/
noncomputable def aspect_ratio : ℝ := 16 / 9

/-- `let image_width: i32 = 400`. -/
def image_width : ℤ := 400

/-- `let image_height: i32 = ((image_width as f64) / aspect_ratio) as i32`. -/
noncomputable def image_height : ℤ := rtrunc ((image_width : ℝ) / aspect_ratio)

/-- `let samples_per_pixel = 20`. -/
def samples_per_pixel : ℕ := 20

/-- `let viewport_height = 2.0`. -/
def viewport_height : ℝ := 2

/-- `let viewport_width = aspect_ratio * viewport_height`. -/
noncomputable def viewport_width : ℝ := aspect_ratio * viewport_height

/-- `let focal_length = 1.0`. -/
def focal_length : ℝ := 1

/-- `let origin = Point3::new(0.0, 0.0, 0.0)`. -/
def camOrigin : Point3 := ⟨0, 0, 0⟩

/-- `let horizontal = Vec3::new(viewport_width, 0.0, 0.0)`. -/
noncomputable def horizontal : Vec3 := ⟨viewport_width, 0, 0⟩

/-- `let vertical = Vec3::new(0.0, viewport_height, 0.0)`. -/
def vertical : Vec3 := ⟨0, viewport_height, 0⟩

/-- `let lower_left_corner = origin - horizontal*0.5 - vertical*0.5 - (0,0,focal_length)`. -/
noncomputable def lower_left_corner : Point3 :=
  camOrigin - horizontal * (0.5 : ℝ) - vertical * (0.5 : ℝ) - Vec3.mk 0 0 focal_length

/-- The scene `main` builds: ground sphere plus three spheres. -/
def world : List Sphere :=
  [⟨⟨0, 0, -1⟩, 0.5⟩, ⟨⟨0, -100.5, -1⟩, 100⟩, ⟨⟨1, 0, -1.5⟩, 0.5⟩, ⟨⟨-1, 0, -1.5⟩, 0.5⟩]

/-- The ray of one sample of pixel `(i, j)` with jitter `ξ`:
`u = (i + ξ.1)/(image_width-1)`, `v = (j + ξ.2)/(image_height-1)`,
`Ray::new(origin, lower_left_corner + horizontal*u + vertical*v - origin)`. -/
noncomputable def sampleRay (i j : ℕ) (ξ : ℝ × ℝ) : Ray :=
  let u := ((i : ℝ) + ξ.1) / ((image_width - 1 : ℤ) : ℝ)
  let v := ((j : ℝ) + ξ.2) / ((image_height - 1 : ℤ) : ℝ)
  ⟨camOrigin, lower_left_corner + horizontal * u + vertical * v - camOrigin⟩

/-- The per-pixel sample loop of `main`, the per-iteration jitter draws of
`rng.gen::<f64>()` abstracted as the stream `ξ`: accumulate
`samples_per_pixel` shades starting from `Color::new(0,0,0)`, then multiply
by `scale = 1.0 / samples_per_pixel`. -/
noncomputable def pixelColor (ξ : ℕ → ℝ × ℝ) (i j : ℕ) : Color :=
  ((List.range samples_per_pixel).foldl
      (fun acc k => acc + ray_color (sampleRay i j (ξ k)) world) (Vec3.mk 0 0 0)) *
    ((1 : ℝ) / (samples_per_pixel : ℝ))

/-- The pixel lines of `main`'s render loop: `j` from `image_height - 1` down
to `0`, `i` from `0` to `image_width - 1`, one `write_color` line per pixel.
`ξ i j` is the jitter stream the thread-local generator supplies to pixel
`(i, j)`. -/
noncomputable def pixLines (ξ : ℕ → ℕ → ℕ → ℝ × ℝ) : List String :=
  (List.range image_height.toNat).reverse.flatMap fun j =>
    (List.range image_width.toNat).map fun i => colorLine (pixelColor (ξ i j) i j)

/-- Everything `main` writes to `image.ppm`: the three header lines, then the
pixel lines. -/
noncomputable def ppmLines (ξ : ℕ → ℕ → ℕ → ℝ × ℝ) : List String :=
  ["P3", toString image_width ++ " " ++ toString image_height, "255"] ++ pixLines ξ

/-- `stepAcc` with the `t > 0.001` test already folded into `acceptedT`:
the same accumulator update, fed the accepted candidate instead of the raw
root.  `findHitAux_cons` proves the two agree. -/
noncomputable def accUpdate (i : ℕ) (acc : Option (ℕ × ℝ)) : Option ℝ → Option (ℕ × ℝ)
  | none => acc
  | some t =>
    match acc with
    | none => some (i, t)
    | some jc => if t < jc.2 then some (i, t) else acc

/-- A ray from the camera origin straight down the viewing axis. -/
def wRay : Ray := ⟨⟨0, 0, 0⟩, ⟨0, 0, -1⟩⟩

/-- A ray from the origin pointing along positive `z` (away from the scene). -/
def rayUp : Ray := ⟨⟨0, 0, 0⟩, ⟨0, 0, 1⟩⟩

/-- A ray from the origin pointing straight down. -/
def rayDown : Ray := ⟨⟨0, 0, 0⟩, ⟨0, -1, 0⟩⟩

/-- A unit sphere two units in front of `wRay` (near root `t = 1`). -/
def sphereNear : Sphere := ⟨⟨0, 0, -2⟩, 1⟩

/-- A unit sphere four units in front of `wRay` (near root `t = 3`). -/
def sphereFar : Sphere := ⟨⟨0, 0, -4⟩, 1⟩

/-- A radius-zero sphere two units in front of `wRay`. -/
def spherePoint : Sphere := ⟨⟨0, 0, -2⟩, 0⟩

/-- A unit sphere behind `rayUp` (nonnegative discriminant, both roots
negative). -/
def sphereBehind : Sphere := ⟨⟨0, 0, -5⟩, 1⟩

/-- An `f64` value including the special values: NaN, `+∞`, `-∞`, or a finite
real.  Used to state `write_color`'s behavior on arbitrary float inputs; the
few operations `write_color` performs are given their documented Rust/IEEE-754
case analyses below. -/
inductive F64 where
  | nan : F64
  | pinf : F64
  | ninf : F64
  | fin (x : ℝ) : F64

/-- `f64::clamp(self, lo, hi)` for finite `lo ≤ hi`: NaN propagates (both
IEEE comparisons in Rust's `if self < min`/`if self > max` are false on NaN),
`-∞ < lo` gives `lo`, `+∞ > hi` gives `hi`, and a finite value clamps as
`rustClamp`. -/
noncomputable def F64.clamp : F64 → ℝ → ℝ → F64
  | .nan, _, _ => .nan
  | .ninf, lo, _ => .fin lo
  | .pinf, _, hi => .fin hi
  | .fin x, lo, hi => .fin (rustClamp x lo hi)

/-- `f64::sqrt`: NaN on NaN and on negative inputs (including `-∞`), `+∞` on
`+∞`, the real square root on nonnegative finite values. -/
noncomputable def F64.sqrt : F64 → F64
  | .nan => .nan
  | .pinf => .pinf
  | .ninf => .nan
  | .fin x => if x < 0 then .nan else .fin (Real.sqrt x)

/-- Multiplication of an `f64` by a finite positive constant (`255.999` in
`write_color`): NaN propagates, the infinities keep their sign, finite values
multiply. -/
noncomputable def F64.mulPos (c : ℝ) : F64 → F64
  | .nan => .nan
  | .pinf => .pinf
  | .ninf => .ninf
  | .fin x => .fin (c * x)

/-- The saturating Rust cast `as i32`: NaN to `0`, `+∞` to `i32::MAX`, `-∞`
to `i32::MIN`, finite values truncated toward zero and clamped to the `i32`
range. -/
noncomputable def F64.toI32 : F64 → ℤ
  | .nan => 0
  | .pinf => 2147483647
  | .ninf => -2147483648
  | .fin x =>
    if x ≤ -2147483648 then -2147483648
    else if (2147483647 : ℝ) ≤ x then 2147483647
    else rtrunc x

/-- One channel of `write_color` on an arbitrary `f64` input:
`(255.999 * value.clamp(0.0, 0.999).sqrt()) as i32`. -/
noncomputable def writeChannelF (v : F64) : ℤ :=
  (F64.mulPos 255.999 ((v.clamp 0 0.999).sqrt)).toI32

/-- A pixel color whose components are arbitrary `f64` values. -/
structure ColorF where
  x : F64
  y : F64
  z : F64

/-- `write_color` on a pixel color with arbitrary `f64` components: the three
integers of the emitted line. -/
noncomputable def write_colorF (c : ColorF) : ℤ × ℤ × ℤ :=
  (writeChannelF c.x, writeChannelF c.y, writeChannelF c.z)

@[simp] lemma accUpdate_none (i : ℕ) (acc : Option (ℕ × ℝ)) : accUpdate i acc none = acc := rfl

@[simp] lemma accUpdate_some_none (i : ℕ) (t : ℝ) : accUpdate i none (some t) = some (i, t) := rfl

lemma accUpdate_some_some (i : ℕ) (jc : ℕ × ℝ) (t : ℝ) :
    accUpdate i (some jc) (some t) = if t < jc.2 then some (i, t) else some jc := rfl

lemma findHitAux_nil (r : Ray) (i : ℕ) (acc : Option (ℕ × ℝ)) :
    findHitAux r i acc [] = acc := rfl

lemma findHitAux_cons (r : Ray) (i : ℕ) (acc : Option (ℕ × ℝ)) (s : Sphere) (l : List Sphere) :
    findHitAux r i acc (s :: l) = findHitAux r (i + 1) (accUpdate i acc (acceptedT r s)) l := by
  have h : stepAcc i acc (hit_sphere s.center s.radius r) = accUpdate i acc (acceptedT r s) := by
    unfold acceptedT
    cases h : hit_sphere s.center s.radius r with
    | none => rfl
    | some t =>
      by_cases ht : (0.001 : ℝ) < t
      · cases acc <;> simp [stepAcc, accUpdate, ht]
      · cases acc <;> simp [stepAcc, accUpdate, ht]
  rw [findHitAux, h]

lemma findHitAux_none_iff (r : Ray) (l : List Sphere) :
    ∀ (i : ℕ) (acc : Option (ℕ × ℝ)),
      findHitAux r i acc l = none ↔ (acc = none ∧ ∀ s ∈ l, acceptedT r s = none) := by
  induction l with
  | nil => intro i acc; simp [findHitAux_nil]
  | cons s l ih =>
    intro i acc
    rw [findHitAux_cons, ih]
    cases h : acceptedT r s with
    | none => simp [h]
    | some t =>
      cases acc with
      | none => simp [h]
      | some jc =>
        rw [accUpdate_some_some]
        constructor
        · rintro ⟨h1, -⟩
          by_cases ht : t < jc.2 <;> simp [ht] at h1
        · rintro ⟨h1, -⟩
          exact absurd h1 (by simp)

lemma findHitAux_le_acc (r : Ray) (l : List Sphere) :
    ∀ (i : ℕ) (acc : Option (ℕ × ℝ)) (k : ℕ) (t : ℝ) (j : ℕ) (c : ℝ),
      findHitAux r i acc l = some (k, t) → acc = some (j, c) → t ≤ c ∧ (j < k → t < c) := by
  induction l with
  | nil =>
    intro i acc k t j c hres hacc
    rw [findHitAux_nil] at hres
    rw [hres] at hacc
    obtain ⟨hk, ht⟩ : k = j ∧ t = c := by simpa using hacc
    subst hk; subst ht
    exact ⟨le_refl _, fun h => absurd h (lt_irrefl _)⟩
  | cons s l ih =>
    intro i acc k t j c hres hacc
    rw [findHitAux_cons] at hres
    cases h : acceptedT r s with
    | none =>
      rw [h, accUpdate_none] at hres
      exact ih _ _ _ _ _ _ hres hacc
    | some t0 =>
      subst hacc
      rw [h, accUpdate_some_some] at hres
      by_cases ht : t0 < c
      · rw [if_pos ht] at hres
        obtain ⟨h1, -⟩ := ih _ _ _ _ _ _ hres rfl
        exact ⟨le_trans h1 (le_of_lt ht), fun _ => lt_of_le_of_lt h1 ht⟩
      · rw [if_neg ht] at hres
        exact ih _ _ _ _ _ _ hres rfl

lemma findHitAux_from (r : Ray) (l : List Sphere) :
    ∀ (i : ℕ) (acc : Option (ℕ × ℝ)) (k : ℕ) (t : ℝ),
      findHitAux r i acc l = some (k, t) →
        acc = some (k, t) ∨
          ∃ m, m < l.length ∧ k = i + m ∧ acceptedT r (l.getD m defaultSphere) = some t := by
  induction l with
  | nil =>
    intro i acc k t hres
    rw [findHitAux_nil] at hres
    exact Or.inl hres
  | cons s l ih =>
    intro i acc k t hres
    rw [findHitAux_cons] at hres
    have shift : (accUpdate i acc (acceptedT r s) = some (k, t) ∨
        ∃ m, m < l.length ∧ k = (i + 1) + m ∧ acceptedT r (l.getD m defaultSphere) = some t) →
        accUpdate i acc (acceptedT r s) = some (k, t) ∨
          ∃ m, m < (s :: l).length ∧ k = i + m ∧
            acceptedT r ((s :: l).getD m defaultSphere) = some t := by
      rintro (hl | ⟨m, hm, hk, ha⟩)
      · exact Or.inl hl
      · exact Or.inr ⟨m + 1, by simpa using Nat.succ_lt_succ hm, by omega, by simpa using ha⟩
    rcases shift (ih _ _ _ _ hres) with hl | hr
    · cases h : acceptedT r s with
      | none =>
        rw [h, accUpdate_none] at hl
        exact Or.inl hl
      | some t0 =>
        cases acc with
        | none =>
          rw [h, accUpdate_some_none] at hl
          obtain ⟨hk, ht⟩ : i = k ∧ t0 = t := by simpa using hl
          exact Or.inr ⟨0, by simp, by omega, by simpa [hk, ht] using h⟩
        | some jc =>
          rw [h, accUpdate_some_some] at hl
          by_cases hlt : t0 < jc.2
          · rw [if_pos hlt] at hl
            obtain ⟨hk, ht⟩ : i = k ∧ t0 = t := by simpa using hl
            exact Or.inr ⟨0, by simp, by omega, by simpa [hk, ht] using h⟩
          · rw [if_neg hlt] at hl
            exact Or.inl hl
    · exact Or.inr hr

lemma findHitAux_min (r : Ray) (l : List Sphere) :
    ∀ (i : ℕ) (acc : Option (ℕ × ℝ)),
      (∀ j c, acc = some (j, c) → j < i) →
      ∀ (k : ℕ) (t : ℝ), findHitAux r i acc l = some (k, t) →
      ∀ m, m < l.length → ∀ t', acceptedT r (l.getD m defaultSphere) = some t' →
        t ≤ t' ∧ (i + m < k → t < t') := by
  induction l with
  | nil =>
    intro i acc _ k t _ m hm
    exact absurd hm (by simp)
  | cons s l ih =>
    intro i acc hinv k t hres m hm t' ha
    rw [findHitAux_cons] at hres
    have hinv' : ∀ j c, accUpdate i acc (acceptedT r s) = some (j, c) → j < i + 1 := by
      intro j c hacc
      cases h : acceptedT r s with
      | none =>
        rw [h, accUpdate_none] at hacc
        exact Nat.lt_succ_of_lt (hinv _ _ hacc)
      | some t0 =>
        cases acc with
        | none =>
          rw [h, accUpdate_some_none] at hacc
          obtain ⟨hj, -⟩ : i = j ∧ t0 = c := by simpa using hacc
          omega
        | some jc =>
          rw [h, accUpdate_some_some] at hacc
          by_cases hlt : t0 < jc.2
          · rw [if_pos hlt] at hacc
            obtain ⟨hj, -⟩ : i = j ∧ t0 = c := by simpa using hacc
            omega
          · rw [if_neg hlt] at hacc
            exact Nat.lt_succ_of_lt (hinv _ _ hacc)
    cases m with
    | zero =>
      have hs : acceptedT r s = some t' := by simpa using ha
      rw [hs] at hres
      cases hacc : acc with
      | none =>
        rw [hacc, accUpdate_some_none] at hres
        have := findHitAux_le_acc r l (i + 1) (some (i, t')) k t i t' hres rfl
        simpa using this
      | some jc =>
        rw [hacc, accUpdate_some_some] at hres
        by_cases hlt : t' < jc.2
        · rw [if_pos hlt] at hres
          have := findHitAux_le_acc r l (i + 1) (some (i, t')) k t i t' hres rfl
          simpa using this
        · rw [if_neg hlt] at hres
          have hj : jc.1 < i := hinv jc.1 jc.2 (by rw [hacc])
          have hle := findHitAux_le_acc r l (i + 1) (some jc) k t jc.1 jc.2 hres rfl
          have hc : jc.2 ≤ t' := le_of_not_lt hlt
          refine ⟨le_trans hle.1 hc, fun hik => ?_⟩
          have : jc.1 < k := by omega
          exact lt_of_lt_of_le (hle.2 this) hc
    | succ m' =>
      have hm' : m' < l.length := by simpa using hm
      have ha' : acceptedT r (l.getD m' defaultSphere) = some t' := by simpa using ha
      have := ih (i + 1) _ hinv' k t hres m' hm' t' ha'
      refine ⟨this.1, fun hik => this.2 (by omega)⟩

lemma findHit_none_iff (r : Ray) (w : List Sphere) :
    findHit r w = none ↔ ∀ s ∈ w, acceptedT r s = none := by
  rw [findHit, findHitAux_none_iff]
  simp

lemma findHit_some_mem (r : Ray) (w : List Sphere) (k : ℕ) (t : ℝ)
    (h : findHit r w = some (k, t)) :
    k < w.length ∧ acceptedT r (w.getD k defaultSphere) = some t := by
  rcases findHitAux_from r w 0 none k t h with hl | ⟨m, hm, hk, ha⟩
  · exact absurd hl (by simp)
  · obtain rfl : k = m := by omega
    exact ⟨hm, ha⟩

lemma findHit_some_min (r : Ray) (w : List Sphere) (k : ℕ) (t : ℝ)
    (h : findHit r w = some (k, t)) :
    ∀ m, m < w.length → ∀ t', acceptedT r (w.getD m defaultSphere) = some t' →
      t ≤ t' ∧ (m < k → t < t') := by
  intro m hm t' ha
  have := findHitAux_min r w 0 none (by simp) k t h m hm t' ha
  simpa using this

lemma hit_sphere_def (center : Point3) (radius : ℝ) (r : Ray) :
    hit_sphere center radius r =
      if sphereDisc center radius r < 0 then none
      else some ((-(sphereHalfB center r) - Real.sqrt (sphereDisc center radius r)) /
        r.direction.length_squared) := rfl

lemma acceptedT_eq_some_iff (r : Ray) (s : Sphere) (t : ℝ) :
    acceptedT r s = some t ↔ hit_sphere s.center s.radius r = some t ∧ 0.001 < t := by
  unfold acceptedT
  cases h : hit_sphere s.center s.radius r with
  | none => simp
  | some t0 =>
    by_cases ht : (0.001 : ℝ) < t0
    · simp only [if_pos ht]
      constructor
      · rintro h1
        obtain rfl : t0 = t := by simpa using h1
        exact ⟨rfl, ht⟩
      · rintro ⟨h1, -⟩
        obtain rfl : t0 = t := by simpa using h1
        rfl
    · simp only [if_neg ht]
      constructor
      · rintro ⟨⟩
      · rintro ⟨h1, h2⟩
        obtain rfl : t0 = t := by simpa using h1
        exact absurd h2 ht

lemma Vec3.length_squared_nonneg (v : Vec3) : 0 ≤ v.length_squared := by
  have hx := mul_self_nonneg v.x
  have hy := mul_self_nonneg v.y
  have hz := mul_self_nonneg v.z
  unfold Vec3.length_squared
  linarith

lemma quadratic_root_identity (a hb c t sq : ℝ) (ha : a ≠ 0)
    (hsq : sq ^ 2 = hb * hb - a * c) (ht : t = (-hb - sq) / a) :
    a * t * t + 2 * hb * t + c = 0 := by
  have h1 : t * a = -hb - sq := by
    rw [ht]
    field_simp
  have h2 : sq = -hb - t * a := by linarith
  rw [h2] at hsq
  have E : a * (a * t * t + 2 * hb * t + c) = 0 := by ring_nf; ring_nf at hsq; linarith
  exact (mul_eq_zero.mp E).resolve_left ha

lemma accepted_t_root (r : Ray) (s : Sphere) (t : ℝ) (h : acceptedT r s = some t) :
    ¬ sphereDisc s.center s.radius r < 0 ∧
      t = (-(sphereHalfB s.center r) - Real.sqrt (sphereDisc s.center s.radius r)) /
        r.direction.length_squared ∧ 0.001 < t := by
  rw [acceptedT_eq_some_iff] at h
  obtain ⟨hh, ht⟩ := h
  rw [hit_sphere_def] at hh
  by_cases hd : sphereDisc s.center s.radius r < 0
  · rw [if_pos hd] at hh
    exact absurd hh (by simp)
  · rw [if_neg hd] at hh
    refine ⟨hd, ?_, ht⟩
    simpa using hh.symm

lemma accepted_dir_ne (r : Ray) (s : Sphere) (t : ℝ) (h : acceptedT r s = some t) :
    r.direction.length_squared ≠ 0 := by
  obtain ⟨-, hroot, ht⟩ := accepted_t_root r s t h
  intro h0
  rw [h0, div_zero] at hroot
  rw [hroot] at ht
  norm_num at ht

lemma accepted_on_sphere (r : Ray) (s : Sphere) (t : ℝ) (h : acceptedT r s = some t) :
    ((r.at t) - s.center).length_squared = s.radius * s.radius := by
  obtain ⟨hd, hroot, ht⟩ := accepted_t_root r s t h
  have ha : r.direction.length_squared ≠ 0 := accepted_dir_ne r s t h
  have hsq : Real.sqrt (sphereDisc s.center s.radius r) ^ 2 =
      sphereHalfB s.center r * sphereHalfB s.center r -
        r.direction.length_squared *
          ((r.origin - s.center).length_squared - s.radius * s.radius) := by
    rw [Real.sq_sqrt (not_lt.mp hd)]
    rfl
  have key := quadratic_root_identity r.direction.length_squared (sphereHalfB s.center r)
    ((r.origin - s.center).length_squared - s.radius * s.radius) t
    (Real.sqrt (sphereDisc s.center s.radius r)) ha hsq hroot
  have expand : ((r.at t) - s.center).length_squared =
      r.direction.length_squared * t * t + 2 * sphereHalfB s.center r * t +
        ((r.origin - s.center).length_squared - s.radius * s.radius) +
        s.radius * s.radius := by
    simp only [Ray.at, Vec3.length_squared, sphereHalfB, Vec3.dot, Vec3.add_x, Vec3.add_y,
      Vec3.add_z, Vec3.sub_x, Vec3.sub_y, Vec3.sub_z, Vec3.smul_x, Vec3.smul_y, Vec3.smul_z]
    ring
  rw [expand, key]
  ring

lemma Vec3.unit_length (v : Vec3) (h : v.length_squared ≠ 0) : v.unit.length = 1 := by
  have hnn := Vec3.length_squared_nonneg v
  have hpos : 0 < v.length_squared := lt_of_le_of_ne hnn (Ne.symm h)
  have hL : 0 < v.length := Real.sqrt_pos.mpr hpos
  have hL2 : v.length * v.length = v.length_squared := Real.mul_self_sqrt hnn
  have hls : (v.unit).length_squared = 1 := by
    unfold Vec3.unit Vec3.length_squared
    simp only
    field_simp
    unfold Vec3.length_squared at hL2
    linarith [hL2]
  unfold Vec3.length
  rw [hls, Real.sqrt_one]

lemma acceptedT_wRay_sphereNear : acceptedT wRay sphereNear = some 1 := by
  have h : hit_sphere sphereNear.center sphereNear.radius wRay = some 1 := by
    rw [hit_sphere_def]
    have hd : sphereDisc sphereNear.center sphereNear.radius wRay = 1 := by
      norm_num [sphereDisc, sphereHalfB, Vec3.dot, Vec3.length_squared, sphereNear, wRay]
    have hb : sphereHalfB sphereNear.center wRay = -2 := by
      norm_num [sphereHalfB, Vec3.dot, sphereNear, wRay]
    have ha : wRay.direction.length_squared = 1 := by
      norm_num [Vec3.length_squared, wRay]
    rw [hd, hb, ha, if_neg (by norm_num), Real.sqrt_one]
    norm_num
  unfold acceptedT
  rw [h]
  norm_num

lemma acceptedT_wRay_sphereFar : acceptedT wRay sphereFar = some 3 := by
  have h : hit_sphere sphereFar.center sphereFar.radius wRay = some 3 := by
    rw [hit_sphere_def]
    have hd : sphereDisc sphereFar.center sphereFar.radius wRay = 1 := by
      norm_num [sphereDisc, sphereHalfB, Vec3.dot, Vec3.length_squared, sphereFar, wRay]
    have hb : sphereHalfB sphereFar.center wRay = -4 := by
      norm_num [sphereHalfB, Vec3.dot, sphereFar, wRay]
    have ha : wRay.direction.length_squared = 1 := by
      norm_num [Vec3.length_squared, wRay]
    rw [hd, hb, ha, if_neg (by norm_num), Real.sqrt_one]
    norm_num
  unfold acceptedT
  rw [h]
  norm_num

lemma acceptedT_wRay_spherePoint : acceptedT wRay spherePoint = some 2 := by
  have h : hit_sphere spherePoint.center spherePoint.radius wRay = some 2 := by
    rw [hit_sphere_def]
    have hd : sphereDisc spherePoint.center spherePoint.radius wRay = 0 := by
      norm_num [sphereDisc, sphereHalfB, Vec3.dot, Vec3.length_squared, spherePoint, wRay]
    have hb : sphereHalfB spherePoint.center wRay = -2 := by
      norm_num [sphereHalfB, Vec3.dot, spherePoint, wRay]
    have ha : wRay.direction.length_squared = 1 := by
      norm_num [Vec3.length_squared, wRay]
    rw [hd, hb, ha, if_neg (by norm_num), Real.sqrt_zero]
    norm_num
  unfold acceptedT
  rw [h]
  norm_num

lemma hit_sphere_rayUp_sphereBehind :
    hit_sphere sphereBehind.center sphereBehind.radius rayUp = some (-6) := by
  rw [hit_sphere_def]
  have hd : sphereDisc sphereBehind.center sphereBehind.radius rayUp = 1 := by
    norm_num [sphereDisc, sphereHalfB, Vec3.dot, Vec3.length_squared, sphereBehind, rayUp]
  have hb : sphereHalfB sphereBehind.center rayUp = 5 := by
    norm_num [sphereHalfB, Vec3.dot, sphereBehind, rayUp]
  have ha : rayUp.direction.length_squared = 1 := by
    norm_num [Vec3.length_squared, rayUp]
  rw [hd, hb, ha, if_neg (by norm_num), Real.sqrt_one]
  norm_num

lemma acceptedT_rayUp_sphereBehind : acceptedT rayUp sphereBehind = none := by
  unfold acceptedT
  rw [hit_sphere_rayUp_sphereBehind]
  norm_num

lemma findHit_wRay_sphereNear : findHit wRay [sphereNear] = some (0, 1) := by
  unfold findHit
  rw [findHitAux_cons, acceptedT_wRay_sphereNear]
  rfl

lemma findHit_wRay_spherePoint : findHit wRay [spherePoint] = some (0, 2) := by
  unfold findHit
  rw [findHitAux_cons, acceptedT_wRay_spherePoint]
  rfl

lemma findHit_rayUp_sphereBehind : findHit rayUp [sphereBehind] = none := by
  unfold findHit
  rw [findHitAux_cons, acceptedT_rayUp_sphereBehind]
  rfl

lemma findHit_near_far : findHit wRay [sphereNear, sphereFar] = some (0, 1) := by
  unfold findHit
  rw [findHitAux_cons, acceptedT_wRay_sphereNear, findHitAux_cons, acceptedT_wRay_sphereFar,
    accUpdate_some_none, accUpdate_some_some, if_neg (by norm_num)]
  rfl

lemma findHit_far_near : findHit wRay [sphereFar, sphereNear] = some (1, 1) := by
  unfold findHit
  rw [findHitAux_cons, acceptedT_wRay_sphereFar, findHitAux_cons, acceptedT_wRay_sphereNear,
    accUpdate_some_none, accUpdate_some_some, if_pos (by norm_num)]
  rfl

/-- C1: for every ray and every scene, the shading query considers per sphere
the near quadratic root (only when the discriminant is nonnegative), accepts a
candidate only when `0.001 < t`, keeps the sphere with the smallest accepted
`t` under a strict `<` against the running minimum (so on equal `t` the
first-inserted sphere wins), and falls through to the background exactly when
no sphere yields an accepted `t`. -/
theorem claim_C1 (r : Ray) (w : List Sphere) :
    (findHit r w = none ↔ ∀ s ∈ w, acceptedT r s = none) ∧
    (∀ k t, findHit r w = some (k, t) →
      k < w.length ∧ acceptedT r (w.getD k defaultSphere) = some t ∧
        ∀ m, m < w.length → ∀ t', acceptedT r (w.getD m defaultSphere) = some t' →
          t ≤ t' ∧ (t' = t → k ≤ m)) ∧
    (findHit r w = none → ray_color r w = backgroundColor r) ∧
    (∀ center radius, (sphereDisc center radius r < 0 → hit_sphere center radius r = none) ∧
      (0 ≤ sphereDisc center radius r →
        hit_sphere center radius r =
          some ((-(sphereHalfB center r) - Real.sqrt (sphereDisc center radius r)) /
            r.direction.length_squared))) := by
  refine ⟨findHit_none_iff r w, ?_, ?_, ?_⟩
  · intro k t h
    obtain ⟨hk, ha⟩ := findHit_some_mem r w k t h
    refine ⟨hk, ha, ?_⟩
    intro m hm t' ha'
    obtain ⟨h1, h2⟩ := findHit_some_min r w k t h m hm t' ha'
    refine ⟨h1, fun he => ?_⟩
    by_contra hlt
    push_neg at hlt
    exact absurd (h2 hlt) (by rw [he]; exact lt_irrefl t)
  · intro h
    simp only [ray_color, h]
  · intro center radius
    constructor
    · intro h
      rw [hit_sphere_def, if_pos h]
    · intro h
      rw [hit_sphere_def, if_neg (not_lt.mpr h)]

/-- C7 (counterexample): for `rayUp` against the scene `[sphereBehind]`, the
ray origin is outside the sphere and the direction is non-degenerate, the
discriminant is not negative, and yet the scene query returns no hit — the
claimed equivalence "no hit iff every discriminant is negative" is false. -/
theorem claim_C7_counterexample :
    sphereBehind.radius * sphereBehind.radius <
        (rayUp.origin - sphereBehind.center).length_squared ∧
      rayUp.direction ≠ Vec3.mk 0 0 0 ∧
      ¬ sphereDisc sphereBehind.center sphereBehind.radius rayUp < 0 ∧
      findHit rayUp [sphereBehind] = none := by
  refine ⟨by norm_num [Vec3.length_squared, rayUp, sphereBehind], ?_, ?_,
    findHit_rayUp_sphereBehind⟩
  · simp [rayUp]
  · norm_num [sphereDisc, sphereHalfB, Vec3.dot, Vec3.length_squared, sphereBehind, rayUp]

/-- C7 (amended): for every ray whose origin is outside every sphere and whose
direction is non-degenerate, the scene query returns no hit if and only if no
sphere yields an accepted `t` (discriminant nonnegative and near root inside
`(0.001, ∞)`), and otherwise returns the sphere with globally minimal accepted
`t`. -/
theorem claim_C7 (r : Ray) (w : List Sphere)
    (hout : ∀ s ∈ w, s.radius * s.radius < (r.origin - s.center).length_squared)
    (hdir : r.direction ≠ Vec3.mk 0 0 0) :
    (findHit r w = none ↔ ∀ s ∈ w, acceptedT r s = none) ∧
    (∀ k t, findHit r w = some (k, t) →
      k < w.length ∧ acceptedT r (w.getD k defaultSphere) = some t ∧
        ∀ m, m < w.length → ∀ t', acceptedT r (w.getD m defaultSphere) = some t' → t ≤ t') := by
  refine ⟨findHit_none_iff r w, ?_⟩
  intro k t h
  obtain ⟨hk, ha⟩ := findHit_some_mem r w k t h
  refine ⟨hk, ha, ?_⟩
  intro m hm t' ha'
  exact (findHit_some_min r w k t h m hm t' ha').1

/-- C7 (witness): the amended theorem applied to `wRay` against
`[sphereNear]`, whose origin is outside the sphere: the query does report a
hit there. -/
theorem claim_C7_witness : findHit wRay [sphereNear] ≠ none := by
  intro hn
  have h := (claim_C7 wRay [sphereNear]
    (by
      intro s hs
      rw [List.mem_singleton] at hs
      subst hs
      norm_num [Vec3.length_squared, wRay, sphereNear])
    (by simp [wRay])).1.mp hn sphereNear (by simp)
  rw [acceptedT_wRay_sphereNear] at h
  exact absurd h (by simp)

/-- C8: a ray whose origin lies exactly on a sphere's surface with direction
pointing outward reports no accepted hit against that sphere, and a ray whose
origin is strictly inside a sphere never reports an accepted hit against it
(the near root is nonpositive and rejected by the `t > 0.001` test). -/
theorem claim_C8 (r : Ray) (s : Sphere) :
    ((r.origin - s.center).length_squared = s.radius * s.radius →
      0 < (r.origin - s.center).dot r.direction → acceptedT r s = none) ∧
    ((r.origin - s.center).length_squared < s.radius * s.radius → acceptedT r s = none) := by
  constructor
  · intro hsurf hbpos
    cases h : acceptedT r s with
    | none => rfl
    | some t =>
      exfalso
      obtain ⟨hd, hroot, ht⟩ := accepted_t_root r s t h
      have ha := accepted_dir_ne r s t h
      have hapos : 0 < r.direction.length_squared :=
        lt_of_le_of_ne (Vec3.length_squared_nonneg _) (Ne.symm ha)
      have hzero : (r.origin - s.center).length_squared - s.radius * s.radius = 0 := by
        rw [hsurf]; ring
      have hdisc : sphereDisc s.center s.radius r =
          sphereHalfB s.center r * sphereHalfB s.center r := by
        unfold sphereDisc
        rw [hzero]
        ring
      have hhb : 0 < sphereHalfB s.center r := hbpos
      have hsqrt : Real.sqrt (sphereDisc s.center s.radius r) = sphereHalfB s.center r := by
        rw [hdisc, Real.sqrt_mul_self (le_of_lt hhb)]
      have htneg : t < 0 := by
        rw [hroot, hsqrt]
        apply div_neg_of_neg_of_pos _ hapos
        linarith
      linarith
  · intro hin
    cases h : acceptedT r s with
    | none => rfl
    | some t =>
      exfalso
      obtain ⟨hd, hroot, ht⟩ := accepted_t_root r s t h
      have ha := accepted_dir_ne r s t h
      have hapos : 0 < r.direction.length_squared :=
        lt_of_le_of_ne (Vec3.length_squared_nonneg _) (Ne.symm ha)
      have hdgt : sphereHalfB s.center r * sphereHalfB s.center r <
          sphereDisc s.center s.radius r := by
        unfold sphereDisc
        nlinarith
      have habs : |sphereHalfB s.center r| < Real.sqrt (sphereDisc s.center s.radius r) := by
        rw [← Real.sqrt_mul_self_eq_abs]
        exact Real.sqrt_lt_sqrt (mul_self_nonneg _) hdgt
      have htneg : t < 0 := by
        rw [hroot]
        apply div_neg_of_neg_of_pos _ hapos
        have h1 : -(sphereHalfB s.center r) ≤ |sphereHalfB s.center r| := neg_le_abs _
        linarith
      linarith

/-- C2 (amended): for every ray whose scene query reports a hit on a sphere of
nonzero radius at accepted parameter `t`, the returned linear color is
`0.5 * (n + (1,1,1))` componentwise for the outward normal
`n = unit(hit_point - center)`, and the length of that normal is within `1e-9`
of `1`. -/
theorem claim_C2 (r : Ray) (w : List Sphere) (k : ℕ) (t : ℝ)
    (hf : findHit r w = some (k, t)) (hrad : (w.getD k defaultSphere).radius ≠ 0) :
    ray_color r w =
      Vec3.mk (((r.at t - (w.getD k defaultSphere).center).unit).x + 1)
        (((r.at t - (w.getD k defaultSphere).center).unit).y + 1)
        (((r.at t - (w.getD k defaultSphere).center).unit).z + 1) * (0.5 : ℝ) ∧
    |((r.at t - (w.getD k defaultSphere).center).unit).length - 1| ≤ 1e-9 := by
  have ha := (findHit_some_mem r w k t hf).2
  constructor
  · simp only [ray_color, hf, hitColor]
  · have hon := accepted_on_sphere r (w.getD k defaultSphere) t ha
    have hne : ((r.at t) - (w.getD k defaultSphere).center).length_squared ≠ 0 := by
      rw [hon]
      exact mul_ne_zero hrad hrad
    rw [Vec3.unit_length _ hne]
    norm_num

/-- C2 (counterexample): a radius-zero sphere is reported hit by `wRay` at
`t = 2`, and the normal computed there is the zero vector, whose length is not
within `1e-9` of `1` — the claim fails without a nonzero-radius hypothesis. -/
theorem claim_C2_counterexample :
    findHit wRay [spherePoint] = some (0, 2) ∧
      ¬ |((wRay.at 2 - ([spherePoint].getD 0 defaultSphere).center).unit).length - 1| ≤ 1e-9 := by
  refine ⟨findHit_wRay_spherePoint, ?_⟩
  have hv : wRay.at 2 - ([spherePoint].getD 0 defaultSphere).center = Vec3.mk 0 0 0 := by
    ext <;> norm_num [Ray.at, wRay, spherePoint, List.getD_cons_zero]
  rw [hv]
  have hu : (Vec3.mk (0:ℝ) 0 0).unit = Vec3.mk 0 0 0 := by
    unfold Vec3.unit
    norm_num
  rw [hu]
  have hl : (Vec3.mk (0:ℝ) 0 0).length = 0 := by
    unfold Vec3.length Vec3.length_squared
    norm_num
  rw [hl]
  norm_num

/-- C2 (witness): the amended theorem applied to `wRay` against
`[sphereNear]` (radius 1, hit at `t = 1`): the reported normal there has unit
length. -/
theorem claim_C2_witness :
    |((wRay.at 1 - ([sphereNear].getD 0 defaultSphere).center).unit).length - 1| ≤ 1e-9 :=
  (claim_C2 wRay [sphereNear] 0 1 findHit_wRay_sphereNear (by simp [sphereNear])).2

/-- C3: for every ray with non-degenerate direction that hits no sphere, the
returned color is the gradient `(1-t)*(1,1,1) + t*(0.5,0.7,1)` with
`t = 0.5*(unit(direction).y + 1)`; at `unit(direction).y = -1` it is exactly
`(1,1,1)` and at `unit(direction).y = 1` exactly `(0.5,0.7,1)`. -/
theorem claim_C3 (r : Ray) (w : List Sphere) (hdir : r.direction ≠ Vec3.mk 0 0 0)
    (hm : findHit r w = none) :
    ray_color r w =
      Vec3.mk 1 1 1 * (1 - 0.5 * ((r.direction.unit).y + 1)) +
        Vec3.mk 0.5 0.7 1 * (0.5 * ((r.direction.unit).y + 1)) ∧
    ((r.direction.unit).y = -1 → ray_color r w = Vec3.mk 1 1 1) ∧
    ((r.direction.unit).y = 1 → ray_color r w = Vec3.mk 0.5 0.7 1) := by
  have hbg : ray_color r w = backgroundColor r := by simp only [ray_color, hm]
  have hform : ray_color r w =
      Vec3.mk 1 1 1 * (1 - 0.5 * ((r.direction.unit).y + 1)) +
        Vec3.mk 0.5 0.7 1 * (0.5 * ((r.direction.unit).y + 1)) := by
    rw [hbg]
    rfl
  refine ⟨hform, fun hy => ?_, fun hy => ?_⟩
  · rw [hform, hy]
    ext <;> norm_num
  · rw [hform, hy]
    ext <;> norm_num

/-- C3 (witness): `rayDown` (direction `(0,-1,0)`, unit y-component `-1`)
against the empty scene yields exactly white. -/
theorem claim_C3_witness : ray_color rayDown [] = Vec3.mk 1 1 1 := by
  have hy : (rayDown.direction.unit).y = -1 := by
    unfold Vec3.unit Vec3.length Vec3.length_squared
    norm_num [rayDown, Real.sqrt_one]
  exact (claim_C3 rayDown []
    (by
      intro h
      have hc := congrArg Vec3.y h
      norm_num [rayDown] at hc)
    rfl).2.1 hy

/-- C9: for every ray and scene whose spheres' accepted `t` values are
pairwise distinct, permuting the sphere list leaves the shading result
unchanged. -/
theorem claim_C9 (r : Ray) (w w2 : List Sphere) (hperm : w.Perm w2)
    (hdist : w.Pairwise (fun s s2 => ∀ t t2,
      acceptedT r s = some t → acceptedT r s2 = some t2 → t ≠ t2)) :
    ray_color r w = ray_color r w2 := by
  cases hw : findHit r w with
  | none =>
    have hall := (findHit_none_iff r w).mp hw
    have hw2 : findHit r w2 = none :=
      (findHit_none_iff r w2).mpr fun s hs => hall s (hperm.mem_iff.mpr hs)
    simp only [ray_color, hw, hw2]
  | some kt =>
    obtain ⟨k, t⟩ := kt
    obtain ⟨hk, ha⟩ := findHit_some_mem r w k t hw
    have hmemw : w.getD k defaultSphere ∈ w := by
      rw [List.getD_eq_get w defaultSphere hk]
      exact List.get_mem w k hk
    have haG : acceptedT r (w.get ⟨k, hk⟩) = some t := by
      rw [← List.getD_eq_get w defaultSphere hk]
      exact ha
    cases hw2 : findHit r w2 with
    | none =>
      exfalso
      have hall2 := (findHit_none_iff r w2).mp hw2
      have hnone := hall2 _ (hperm.mem_iff.mp hmemw)
      rw [hnone] at ha
      exact absurd ha (by simp)
    | some kt2 =>
      obtain ⟨k2, t2⟩ := kt2
      obtain ⟨hk2, ha2⟩ := findHit_some_mem r w2 k2 t2 hw2
      have hmemw2 : w2.getD k2 defaultSphere ∈ w2 := by
        rw [List.getD_eq_get w2 defaultSphere hk2]
        exact List.get_mem w2 k2 hk2
      obtain ⟨n, hn⟩ := List.mem_iff_get.mp (hperm.mem_iff.mpr hmemw2)
      obtain ⟨n2, hn2⟩ := List.mem_iff_get.mp (hperm.mem_iff.mp hmemw)
      have hawG : acceptedT r (w.get n) = some t2 := by
        rw [hn]
        exact ha2
      have haw : acceptedT r (w.getD n.1 defaultSphere) = some t2 := by
        rw [List.getD_eq_get w defaultSphere n.2]
        exact hawG
      have haw2 : acceptedT r (w2.getD n2.1 defaultSphere) = some t := by
        rw [List.getD_eq_get w2 defaultSphere n2.2]
        rw [hn2]
        exact ha
      have h12 : t ≤ t2 := (findHit_some_min r w k t hw n.1 n.2 t2 haw).1
      have h21 : t2 ≤ t := (findHit_some_min r w2 k2 t2 hw2 n2.1 n2.2 t haw2).1
      have htt : t = t2 := le_antisymm h12 h21
      have hsph : w.getD k defaultSphere = w2.getD k2 defaultSphere := by
        by_cases hkn : k = n.1
        · rw [List.getD_eq_get w defaultSphere hk]
          subst hkn
          exact hn
        · exfalso
          have hP := List.pairwise_iff_get.mp hdist
          rcases Nat.lt_or_ge k n.1 with hlt | hge
          · have hR := hP ⟨k, hk⟩ n (Fin.lt_def.mpr hlt)
            exact absurd htt (hR t t2 haG hawG)
          · have hgt : n.1 < k := lt_of_le_of_ne hge (Ne.symm hkn)
            have hR := hP n ⟨k, hk⟩ (Fin.lt_def.mpr hgt)
            exact absurd htt.symm (hR t2 t hawG haG)
      simp only [ray_color, hw, hw2]
      rw [hsph, htt]

/-- C9 (witness): swapping the two spheres of a concrete scene with distinct
accepted parameters (`t = 1` and `t = 3`) leaves the shading of `wRay`
unchanged. -/
theorem claim_C9_witness :
    ray_color wRay [sphereNear, sphereFar] = ray_color wRay [sphereFar, sphereNear] := by
  apply claim_C9
  · exact List.Perm.swap sphereFar sphereNear []
  · refine List.pairwise_cons.mpr ⟨?_, List.pairwise_singleton _ _⟩
    intro s hs t t2 h1 h2
    rw [List.mem_singleton] at hs
    subst hs
    rw [acceptedT_wRay_sphereNear] at h1
    rw [acceptedT_wRay_sphereFar] at h2
    obtain rfl : (1 : ℝ) = t := by simpa using h1
    obtain rfl : (3 : ℝ) = t2 := by simpa using h2
    norm_num

lemma rustClamp_mem (x : ℝ) : 0 ≤ rustClamp x 0 0.999 ∧ rustClamp x 0 0.999 ≤ 0.999 := by
  unfold rustClamp
  by_cases h1 : x < 0
  · rw [if_pos h1]
    norm_num
  · rw [if_neg h1]
    by_cases h2 : x > 0.999
    · rw [if_pos h2]
      norm_num
    · rw [if_neg h2]
      push_neg at h1 h2
      exact ⟨h1, h2⟩

lemma gammaChannel_nonneg (x : ℝ) : 0 ≤ gammaChannel x := Real.sqrt_nonneg _

lemma gammaChannel_lt_one (x : ℝ) : gammaChannel x < 1 := by
  obtain ⟨h0, h1⟩ := rustClamp_mem x
  unfold gammaChannel
  have := Real.sqrt_lt_sqrt h0 (show rustClamp x 0 0.999 < 1 by linarith)
  simpa using this

lemma rtrunc_of_nonneg (x : ℝ) (h : 0 ≤ x) : rtrunc x = ⌊x⌋ := if_pos h

/-- C5 (amended): every emitted channel integer equals
`⌊255.999 * sqrt(clamp(channel, 0, 0.999))⌋` — the source multiplies by the
constant `255.999`, not `256` — and that integer lies in `[0, 255]`. -/
theorem claim_C5 (x : ℝ) :
    quantize (gammaChannel x) = ⌊255.999 * Real.sqrt (rustClamp x 0 0.999)⌋ ∧
      0 ≤ quantize (gammaChannel x) ∧ quantize (gammaChannel x) ≤ 255 := by
  have hg0 : 0 ≤ gammaChannel x := gammaChannel_nonneg x
  have hg1 : gammaChannel x < 1 := gammaChannel_lt_one x
  have heq : quantize (gammaChannel x) = ⌊255.999 * gammaChannel x⌋ := by
    unfold quantize
    exact rtrunc_of_nonneg _ (by positivity)
  refine ⟨heq, ?_, ?_⟩
  · rw [heq]
    exact Int.floor_nonneg.mpr (by positivity)
  · rw [heq]
    have hlt : (255.999 : ℝ) * gammaChannel x < ((256 : ℤ) : ℝ) := by
      push_cast
      nlinarith
    have := Int.floor_lt.mpr hlt
    omega

/-- C5 (counterexample): at channel value `1/65536` the code emits `0`
(`⌊255.999 / 256⌋`), while the claimed formula `sqrt(clamp(...)) * 256`
truncates to `1`. -/
theorem claim_C5_counterexample :
    quantize (gammaChannel (1 / 65536)) = 0 ∧
      ⌊Real.sqrt (rustClamp (1 / 65536) 0 0.999) * 256⌋ = 1 := by
  have hc : rustClamp (1 / 65536 : ℝ) 0 0.999 = 1 / 65536 := by
    unfold rustClamp
    rw [if_neg (by norm_num), if_neg (by norm_num)]
  have hs : Real.sqrt (1 / 65536 : ℝ) = 1 / 256 := by
    rw [show (1 / 65536 : ℝ) = (1 / 256) ^ 2 by norm_num, Real.sqrt_sq (by norm_num)]
  constructor
  · unfold quantize gammaChannel
    rw [hc, hs]
    unfold rtrunc
    rw [if_pos (by norm_num)]
    apply Int.floor_eq_zero_iff.mpr
    norm_num [Set.mem_Ico]
  · rw [hc, hs]
    norm_num

lemma foldl_add_sum (f : ℕ → Vec3) (l : List ℕ) (init : Vec3) :
    l.foldl (fun acc k => acc + f k) init = init + (l.map f).sum := by
  induction l generalizing init with
  | nil => simp
  | cons a l ih => simp [ih, add_assoc]

/-- C4: for every pixel `(i, j)` the renderer accumulates
`samples_per_pixel = 20` samples, each cast through
`u = (i + ξ_u)/(image_width-1)`, `v = (j + ξ_v)/(image_height-1)` as
`Ray(origin, lower_left_corner + horizontal*u + vertical*v - origin)`, sums
the shades, and the final pixel color is that sum divided by `20`. -/
theorem claim_C4 (ξ : ℕ → ℝ × ℝ) (i j : ℕ)
    (hξ : ∀ k, k < 20 → 0 ≤ (ξ k).1 ∧ (ξ k).1 < 1 ∧ 0 ≤ (ξ k).2 ∧ (ξ k).2 < 1) :
    samples_per_pixel = 20 ∧
    pixelColor ξ i j =
      ((List.range 20).map fun k =>
        ray_color
          (Ray.mk camOrigin
            (lower_left_corner +
              horizontal * (((i : ℝ) + (ξ k).1) / ((image_width - 1 : ℤ) : ℝ)) +
              vertical * (((j : ℝ) + (ξ k).2) / ((image_height - 1 : ℤ) : ℝ)) -
              camOrigin))
          world).sum * ((1 : ℝ) / 20) := by
  refine ⟨rfl, ?_⟩
  unfold pixelColor
  rw [foldl_add_sum]
  rw [show Vec3.mk (0 : ℝ) 0 0 = 0 from rfl, zero_add]
  norm_num [sampleRay, samples_per_pixel]

/-- C4 (witness): the sampler theorem applied to the zero-jitter stream at
pixel `(0, 0)`: the sample count is `20`. -/
theorem claim_C4_witness : samples_per_pixel = 20 :=
  (claim_C4 (fun _ => (0, 0)) 0 0 (fun _ _ => by norm_num)).1

lemma quantize_gamma_bounds (x : ℝ) : 0 ≤ quantize (gammaChannel x) ∧
    quantize (gammaChannel x) ≤ 255 := by
  have hg0 : 0 ≤ gammaChannel x := gammaChannel_nonneg x
  have hg1 : gammaChannel x < 1 := gammaChannel_lt_one x
  have heq : quantize (gammaChannel x) = ⌊255.999 * gammaChannel x⌋ := by
    unfold quantize
    exact rtrunc_of_nonneg _ (by positivity)
  constructor
  · rw [heq]
    exact Int.floor_nonneg.mpr (by positivity)
  · rw [heq]
    have hlt : (255.999 : ℝ) * gammaChannel x < ((256 : ℤ) : ℝ) := by
      push_cast
      nlinarith
    have := Int.floor_lt.mpr hlt
    omega

lemma image_height_eq : image_height = 225 := by
  unfold image_height aspect_ratio image_width rtrunc
  rw [if_pos (by norm_num)]
  rw [show ((400 : ℤ) : ℝ) / ((16 : ℝ) / 9) = 225 by norm_num]
  norm_num

lemma image_height_toNat : image_height.toNat = 225 := by
  rw [image_height_eq]
  rfl

lemma header_line_eq : toString image_width ++ " " ++ toString image_height = "400 225" := by
  rw [image_height_eq]
  rfl

lemma flatMap_getD_const {β : Type} (f : ℕ → List β) (W : ℕ) (d : β) :
    ∀ (l : List ℕ), (∀ a ∈ l, (f a).length = W) →
      ∀ row col, row < l.length → col < W →
        (l.flatMap f).getD (row * W + col) d = (f (l.getD row 0)).getD col d := by
  intro l
  induction l with
  | nil =>
    intro _ row col hrow _
    exact absurd hrow (by simp)
  | cons a l ih =>
    intro h row col hrow hcol
    cases row with
    | zero =>
      rw [List.flatMap_cons, Nat.zero_mul, Nat.zero_add,
        List.getD_append _ _ _ _ (by rw [h a (by simp)]; exact hcol), List.getD_cons_zero]
    | succ row2 =>
      rw [List.flatMap_cons]
      have hlen : (f a).length = W := h a (by simp)
      have hge : (f a).length ≤ (row2 + 1) * W + col := by
        rw [hlen, Nat.succ_mul]
        omega
      rw [List.getD_append_right _ _ _ _ hge, hlen]
      have hidx : (row2 + 1) * W + col - W = row2 * W + col := by
        rw [Nat.succ_mul]
        generalize row2 * W = A
        omega
      rw [hidx, List.getD_cons_succ]
      exact ih (fun a ha => h a (by simp [ha])) row2 col (by simpa using hrow) hcol

lemma getD_range (n row : ℕ) (h : row < n) : (List.range n).getD row 0 = row := by
  rw [List.getD_eq_get _ _ (by simpa using h), List.get_range]

lemma getD_map_range {β : Type} (f : ℕ → β) (n col : ℕ) (h : col < n) (d : β) :
    ((List.range n).map f).getD col d = f col := by
  rw [List.getD_eq_get _ _ (by simpa using h), List.get_map]
  congr 1
  exact List.get_range _ _

lemma flatMap_length_const {β : Type} (f : ℕ → List β) (W : ℕ) :
    ∀ (l : List ℕ), (∀ a ∈ l, (f a).length = W) → (l.flatMap f).length = l.length * W := by
  intro l
  induction l with
  | nil => intro _; simp
  | cons a l ih =>
    intro h
    rw [List.flatMap_cons, List.length_append, h a (by simp),
      ih (fun a ha => h a (by simp [ha])), List.length_cons, Nat.succ_mul]
    omega

lemma pixLines_eq (ξ : ℕ → ℕ → ℕ → ℝ × ℝ) :
    pixLines ξ = (List.range 225).flatMap fun row =>
      (List.range 400).map fun i => colorLine (pixelColor (ξ i (224 - row)) i (224 - row)) := by
  unfold pixLines
  rw [image_height_toNat, show image_width.toNat = 400 from rfl]
  rw [List.range_eq_range', List.reverse_range', ← List.range_eq_range', List.flatMap_map]

/-- C6: the program emits exactly the header lines `"P3"`, `"400 225"`,
`"255"`, followed by exactly `400 * 225` pixel lines of three space-separated
integers each in `[0, 255]`, rows emitted in order `j = 224` down to `0` (top
first) and columns left to right: the line at row-major position
`(row, col)` is the pixel `(i = col, j = 224 - row)`. -/
theorem claim_C6 (ξ : ℕ → ℕ → ℕ → ℝ × ℝ) :
    ppmLines ξ = "P3" :: "400 225" :: "255" :: pixLines ξ ∧
    (pixLines ξ).length = 400 * 225 ∧
    (∀ row col, row < 225 → col < 400 →
      (pixLines ξ).getD (row * 400 + col) "" =
        colorLine (pixelColor (ξ col (224 - row)) col (224 - row))) ∧
    (∀ line ∈ pixLines ξ, ∃ a b c : ℤ,
      line = toString a ++ " " ++ toString b ++ " " ++ toString c ∧
        0 ≤ a ∧ a ≤ 255 ∧ 0 ≤ b ∧ b ≤ 255 ∧ 0 ≤ c ∧ c ≤ 255) := by
  refine ⟨?_, ?_, ?_, ?_⟩
  · unfold ppmLines
    rw [header_line_eq]
    rfl
  · rw [pixLines_eq]
    rw [flatMap_length_const _ 400 _ (by intro a _; simp)]
    simp
  · intro row col hrow hcol
    rw [pixLines_eq]
    rw [flatMap_getD_const _ 400 "" _ (by intro a _; simp) row col (by simpa) hcol]
    rw [getD_range 225 row hrow]
    exact getD_map_range _ 400 col hcol ""
  · intro line hline
    rw [pixLines_eq] at hline
    rw [List.mem_flatMap] at hline
    obtain ⟨row, -, hline⟩ := hline
    rw [List.mem_map] at hline
    obtain ⟨i, -, hline⟩ := hline
    refine ⟨(writeColorInts (pixelColor (ξ i (224 - row)) i (224 - row))).1,
      (writeColorInts (pixelColor (ξ i (224 - row)) i (224 - row))).2.1,
      (writeColorInts (pixelColor (ξ i (224 - row)) i (224 - row))).2.2,
      hline.symm, ?_, ?_, ?_, ?_, ?_, ?_⟩
    · exact (quantize_gamma_bounds _).1
    · exact (quantize_gamma_bounds _).2
    · exact (quantize_gamma_bounds _).1
    · exact (quantize_gamma_bounds _).2
    · exact (quantize_gamma_bounds _).1
    · exact (quantize_gamma_bounds _).2

/-- C6 (witness): the header of the concrete render (zero-jitter stream) is
exactly `"P3"`, `"400 225"`, `"255"` followed by the pixel lines. -/
theorem claim_C6_witness :
    ppmLines (fun _ _ _ => (0, 0)) =
      "P3" :: "400 225" :: "255" :: pixLines (fun _ _ _ => (0, 0)) :=
  (claim_C6 (fun _ _ _ => (0, 0))).1

lemma F64.sqrt_fin (x : ℝ) :
    F64.sqrt (F64.fin x) = if x < 0 then F64.nan else F64.fin (Real.sqrt x) := rfl

lemma F64.toI32_fin (x : ℝ) :
    F64.toI32 (F64.fin x) =
      if x ≤ -2147483648 then -2147483648
      else if (2147483647 : ℝ) ≤ x then 2147483647
      else rtrunc x := rfl

lemma rustClamp_of_nonpos (x : ℝ) (h : x ≤ 0) : rustClamp x 0 0.999 = 0 := by
  rcases lt_or_eq_of_le h with hlt | heq
  · unfold rustClamp
    rw [if_pos hlt]
  · subst heq
    unfold rustClamp
    rw [if_neg (by norm_num), if_neg (by norm_num)]

lemma gammaChannel_of_nonpos (x : ℝ) (h : x ≤ 0) : gammaChannel x = 0 := by
  unfold gammaChannel
  rw [rustClamp_of_nonpos x h, Real.sqrt_zero]

lemma quantize_zero : quantize 0 = 0 := by
  unfold quantize rtrunc
  rw [mul_zero, if_pos le_rfl]
  exact Int.floor_zero

lemma writeChannelF_fin (x : ℝ) : writeChannelF (F64.fin x) = quantize (gammaChannel x) := by
  show (F64.mulPos 255.999 (F64.sqrt (F64.fin (rustClamp x 0 0.999)))).toI32 =
    quantize (gammaChannel x)
  rw [F64.sqrt_fin, if_neg (not_lt.mpr (rustClamp_mem x).1)]
  show F64.toI32 (F64.fin (255.999 * Real.sqrt (rustClamp x 0 0.999))) = quantize (gammaChannel x)
  have hge : Real.sqrt (rustClamp x 0 0.999) = gammaChannel x := rfl
  rw [F64.toI32_fin, hge]
  have hg0 : 0 ≤ gammaChannel x := gammaChannel_nonneg x
  have hg1 : gammaChannel x < 1 := gammaChannel_lt_one x
  rw [if_neg (not_le.mpr (by nlinarith)), if_neg (not_le.mpr (by nlinarith))]
  rfl

lemma writeChannelF_ninf : writeChannelF F64.ninf = 0 := by
  show (F64.mulPos 255.999 (F64.sqrt (F64.fin 0))).toI32 = 0
  rw [F64.sqrt_fin, if_neg (lt_irrefl 0), Real.sqrt_zero]
  show F64.toI32 (F64.fin (255.999 * 0)) = 0
  rw [mul_zero, F64.toI32_fin, if_neg (by norm_num), if_neg (by norm_num)]
  unfold rtrunc
  rw [if_pos le_rfl]
  exact Int.floor_zero

lemma writeChannelF_pinf : writeChannelF F64.pinf = 255 := by
  show (F64.mulPos 255.999 (F64.sqrt (F64.fin 0.999))).toI32 = 255
  rw [F64.sqrt_fin, if_neg (by norm_num)]
  show F64.toI32 (F64.fin (255.999 * Real.sqrt 0.999)) = 255
  have h0 : 0 ≤ Real.sqrt 0.999 := Real.sqrt_nonneg _
  have hub : Real.sqrt 0.999 < 1 := by
    have := Real.sqrt_lt_sqrt (by norm_num : (0 : ℝ) ≤ 0.999) (by norm_num : (0.999 : ℝ) < 1)
    simpa using this
  have hlb : (0.9961 : ℝ) < Real.sqrt 0.999 := by
    rw [show (0.9961 : ℝ) = Real.sqrt (0.9961 ^ 2) from (Real.sqrt_sq (by norm_num)).symm]
    exact Real.sqrt_lt_sqrt (by positivity) (by norm_num)
  rw [F64.toI32_fin, if_neg (not_le.mpr (by nlinarith)), if_neg (not_le.mpr (by nlinarith))]
  unfold rtrunc
  rw [if_pos (by nlinarith)]
  refine Int.floor_eq_iff.mpr ⟨?_, ?_⟩
  · push_cast
    nlinarith
  · push_cast
    nlinarith

lemma writeChannelF_bounds (v : F64) : 0 ≤ writeChannelF v ∧ writeChannelF v ≤ 255 := by
  cases v with
  | nan =>
    have h : writeChannelF F64.nan = 0 := rfl
    rw [h]
    norm_num
  | pinf =>
    rw [writeChannelF_pinf]
    norm_num
  | ninf =>
    rw [writeChannelF_ninf]
    norm_num
  | fin x =>
    rw [writeChannelF_fin]
    exact quantize_gamma_bounds x

/-- C10: on arbitrary `f64` inputs — NaN and the two infinities included —
`write_color` emits exactly three integers, each in `[0, 255]`: a NaN channel
yields `0`, a `+∞` channel yields the maximum quantized value `255` (and no
input exceeds it), a negative or `-∞` channel yields `0`; the numeric pipeline
is total, so only the underlying I/O write can fail. -/
theorem claim_C10 (c : ColorF) :
    (0 ≤ (write_colorF c).1 ∧ (write_colorF c).1 ≤ 255) ∧
    (0 ≤ (write_colorF c).2.1 ∧ (write_colorF c).2.1 ≤ 255) ∧
    (0 ≤ (write_colorF c).2.2 ∧ (write_colorF c).2.2 ≤ 255) ∧
    writeChannelF F64.nan = 0 ∧
    writeChannelF F64.pinf = 255 ∧
    (∀ v : F64, writeChannelF v ≤ writeChannelF F64.pinf) ∧
    (∀ x : ℝ, x < 0 → writeChannelF (F64.fin x) = 0) ∧
    writeChannelF F64.ninf = 0 := by
  refine ⟨writeChannelF_bounds c.x, writeChannelF_bounds c.y, writeChannelF_bounds c.z,
    rfl, writeChannelF_pinf, ?_, ?_, writeChannelF_ninf⟩
  · intro v
    rw [writeChannelF_pinf]
    exact (writeChannelF_bounds v).2
  · intro x hx
    rw [writeChannelF_fin, gammaChannel_of_nonpos x (le_of_lt hx), quantize_zero]
